import Mathlib

/-!
Verification of the masonry layout / drag-reorder engine of
react-native-draggable-masonry.

Shallow embedding conventions:
* JS numbers are modelled as exact rationals (`ℚ`); decimal literals such as
  `0.5`, `0.3`, `0.2` denote the exact rationals 1/2, 3/10, 1/5 (the JS doubles
  are the nearest binary approximations; none of the properties proved here
  depend on that rounding).  The auto-scroll speed curve uses
  `Math.pow(intensity, autoScrollAcceleration)` with the non-integer default
  exponent 2.5, so that one component is modelled over `ℝ` with real `rpow`.
* A JS `Record<string, T>` built by insertion is modelled as an association
  list `List (String × T)` in insertion order; `positions[key]` lookup is
  `List.lookup`.
* `Array.prototype.splice(i, 0, x)` (insertion, with the JS clamping of the
  index to the array length) is `spliceInsert` below;
  `Array.prototype.splice(i, 1)` at a valid index is `List.eraseIdx`.
* `Array.prototype.sort` is stable (ES2019), modelled by `List.mergeSort`.

Sources:
* `src/src/masonry.ts` — namespace `Masonry`.
* `src/unnamed/part_002` (flat-greedy list component) — namespace `MainList`.
* `src/unnamed/part_001`, second file in the pack (previous flat variant of
  the component, its own `findInsertIndex`) — namespace `AltList`.
* `src/unnamed/part_001`, first file (bucketed component with the height
  balancing loop inside `handleDragChange`) — namespace `BucketList`.
-/

/-- `MasonryItem` from `src/src/types.ts` / part_002 types: a stable string key
plus a height; the extra payload is opaque to the engine and omitted. -/
structure MasonryItem where
  id : String
  height : ℚ
deriving DecidableEq

/-- `PositionedItem` from `src/src/masonry.ts` (the bucket calculator's output
record). -/
structure PositionedItem where
  id : String
  x : ℚ
  y : ℚ
  width : ℚ
  height : ℚ
  column : ℕ
deriving DecidableEq

/-- `ItemPosition` from part_002's types (the flat calculator's output record,
no `id` field). -/
structure ItemPosition where
  x : ℚ
  y : ℚ
  width : ℚ
  height : ℚ
  column : ℕ
deriving DecidableEq

/-- The column width formula `(containerWidth - (numColumns - 1) * gap) /
numColumns`, shared by `calculateColumnLayout` (masonry.ts line 33) and
`calculateLayout` (part_002 line 37, with `columnGap` for `gap`). -/
def columnWidthOf (containerWidth gap : ℚ) (numColumns : ℕ) : ℚ :=
  (containerWidth - ((numColumns : ℚ) - 1) * gap) / (numColumns : ℚ)

/-- JS `array.splice(i, 0, a)`: insert `a` at index `i`; JS clamps `i` to the
array length, which `take`/`drop` do as well. -/
def spliceInsert {α : Type*} (i : ℕ) (a : α) (l : List α) : List α :=
  l.take i ++ a :: l.drop i

namespace Masonry

/-- The `for (let i = 1; ...) if (columnHeights[i] < columnHeights[shortest])`
scan of `distributeToColumns` (masonry.ts lines 71-76), and the identical
`minHeight`/`minColumn` scan of `calculateLayout` (part_002 lines 42-49):
walk the heights after the first with a running least value, updating only on
a strict decrease (so the lowest index wins ties).  `c` is the index of the
head of the remaining list, `shortest`/`minVal` the best index and value so
far. -/
def findShortestAux : List ℚ → ℕ → ℕ → ℚ → ℕ × ℚ
  | [], _, shortest, minVal => (shortest, minVal)
  | h :: t, c, shortest, minVal =>
    if h < minVal then findShortestAux t (c + 1) c h
    else findShortestAux t (c + 1) shortest minVal

/-- Index of the column with the smallest running height (first one on ties).
For the empty heights list (numColumns = 0, never reached by the claims) the
JS loop leaves the initial index 0. -/
def findShortest (heights : List ℚ) : ℕ :=
  match heights with
  | [] => 0
  | h :: t => (findShortestAux t 1 0 h).1

/-- Loop body of `distributeToColumns` (masonry.ts lines 70-79): push each item
onto the currently shortest column and add only `item.height` (no gap) to that
column's running total. -/
def distributeGo : List MasonryItem → List (List MasonryItem) → List ℚ →
    List (List MasonryItem)
  | [], columns, _ => columns
  | item :: rest, columns, columnHeights =>
    let shortest := findShortest columnHeights
    distributeGo rest
      (columns.set shortest ((columns.getD shortest []) ++ [item]))
      (columnHeights.set shortest ((columnHeights.getD shortest 0) + item.height))

/-- `distributeToColumns` (masonry.ts lines 66-82). -/
def distributeToColumns (items : List MasonryItem) (numColumns : ℕ) :
    List (List MasonryItem) :=
  distributeGo items (List.replicate numColumns []) (List.replicate numColumns 0)

/-- Inner `colItems.forEach` of `calculateColumnLayout` (masonry.ts lines
38-52) for the bucket at index `colIndex`, starting from accumulated height
`y`.  In the source a shared `columnHeights` array is used, but each bucket is
walked in one pass and `columnHeights[colIndex]` is only touched during that
pass, so the per-column accumulator is the same computation. -/
def stackColumn (colIndex : ℕ) (columnWidth gap : ℚ) :
    List MasonryItem → ℚ → List (String × PositionedItem)
  | [], _ => []
  | item :: rest, y =>
    (item.id,
      { id := item.id
        x := (colIndex : ℚ) * (columnWidth + gap)
        y := y
        width := columnWidth
        height := item.height
        column := colIndex }) ::
      stackColumn colIndex columnWidth gap rest (y + item.height + gap)

/-- Output record of `calculateColumnLayout`. -/
structure ColumnLayoutResult where
  positions : List (String × PositionedItem)
  columnHeights : List ℚ
  totalHeight : ℚ

/-- `calculateColumnLayout` (masonry.ts lines 22-60).  `totalHeight` is
`Math.max(...columnHeights)`; for zero columns JS would give `-Infinity`,
which has no rational counterpart — the claims all assume at least one
column, and we return 0 in that unreachable case. -/
def calculateColumnLayout (columns : List (List MasonryItem)) (numColumns : ℕ)
    (containerWidth gap : ℚ) : ColumnLayoutResult :=
  let columnWidth := columnWidthOf containerWidth gap numColumns
  let positions :=
    (columns.enum.map (fun ci => stackColumn ci.1 columnWidth gap ci.2 0)).flatten
  let columnHeights :=
    (List.range numColumns).map
      (fun c => (columns.getD c []).foldl (fun s it => s + it.height + gap) 0)
  { positions := positions
    columnHeights := columnHeights
    totalHeight :=
      match columnHeights with
      | [] => 0
      | h :: t => t.foldl max h }

/-- `reorderItems` (masonry.ts lines 84-89): `splice(fromIndex, 1)` out, then
`splice(toIndex, 0, removed)` back in.  For an out-of-range `fromIndex` the JS
code would insert `undefined`, which a typed list cannot represent; the claims
only concern valid indices, where the guard below is true. -/
def reorderItems {α : Type*} (items : List α) (fromIndex toIndex : ℕ) : List α :=
  if h : fromIndex < items.length then
    spliceInsert toIndex items[fromIndex] (items.eraseIdx fromIndex)
  else items

end Masonry

namespace MainList

/-- Output record of part_002's `calculateLayout` (`ColumnLayout` in its
types). -/
structure ColumnLayout where
  positions : List (String × ItemPosition)
  totalHeight : ℚ

/-- The `for (const item of data)` loop of `calculateLayout` (part_002 lines
41-63): place each item in the column with the least accumulated height
(`Masonry.findShortestAux` is the very same `minHeight`/`minColumn` scan), at
`y = columnHeights[minColumn]`, then add `item.height + rowGap` to that
column.  Returns the placed positions in order together with the final
`columnHeights`.  The default `keyExtractor` `(item) => item.id` is used. -/
def calcLayoutGo (columnWidth rowGap columnGap : ℚ) :
    List MasonryItem → List ℚ → List (String × ItemPosition) × List ℚ
  | [], columnHeights => ([], columnHeights)
  | item :: rest, columnHeights =>
    let minColumn := Masonry.findShortest columnHeights
    let y := columnHeights.getD minColumn 0
    let res := calcLayoutGo columnWidth rowGap columnGap rest
      (columnHeights.set minColumn (y + item.height + rowGap))
    ((item.id,
      { x := (minColumn : ℚ) * (columnWidth + columnGap)
        y := y
        width := columnWidth
        height := item.height
        column := minColumn }) :: res.1, res.2)

/-- `calculateLayout` (part_002 lines 29-67).  `totalHeight` is
`Math.max(...columnHeights, 0)`. -/
def calculateLayout (data : List MasonryItem) (numColumns : ℕ)
    (containerWidth rowGap columnGap : ℚ) : ColumnLayout :=
  let columnWidth := columnWidthOf containerWidth columnGap numColumns
  let res := calcLayoutGo columnWidth rowGap columnGap data
    (List.replicate numColumns 0)
  { positions := res.1
    totalHeight := res.2.foldl max 0 }

/-- The `OverlapInfo` record of `findInsertIndex` (part_002 lines 119-126).
The `item` field is only used to compute `originalIndex`, so it is dropped. -/
structure OverlapInfo where
  index : ℕ
  originalIndex : ℕ
  overlapArea : ℚ
  pos : ItemPosition
  distanceY : ℚ

/-- The `for (let i = 0; i < nearbyData.length; i++)` loop of
`findInsertIndex` (part_002 lines 130-158): for each nearby item with a known
position, record its index `i` in `nearbyData`, its first index in
`filteredData` (JS `indexOf`; reference equality there, structural equality
here — both give an index below `filteredData.length`, which is all the claims
use), the axis-aligned intersection area with the dragged rectangle, and the
vertical centre distance. -/
def buildOverlaps (dragX dragY dragRight dragBottom dragCenterY : ℚ)
    (positions : List (String × ItemPosition)) (filteredData : List MasonryItem) :
    List MasonryItem → ℕ → List OverlapInfo
  | [], _ => []
  | item :: rest, i =>
    match positions.lookup item.id with
    | none => buildOverlaps dragX dragY dragRight dragBottom dragCenterY
        positions filteredData rest (i + 1)
    | some pos =>
      let overlapLeft := max dragX pos.x
      let overlapRight := min dragRight (pos.x + pos.width)
      let overlapTop := max dragY pos.y
      let overlapBottom := min dragBottom (pos.y + pos.height)
      let overlapWidth := max 0 (overlapRight - overlapLeft)
      let overlapHeight := max 0 (overlapBottom - overlapTop)
      let itemCenterY := pos.y + pos.height / 2
      { index := i
        originalIndex := filteredData.indexOf item
        overlapArea := overlapWidth * overlapHeight
        pos := pos
        distanceY := |dragCenterY - itemCenterY| } ::
        buildOverlaps dragX dragY dragRight dragBottom dragCenterY
          positions filteredData rest (i + 1)

/-- The final fallback loop of `findInsertIndex` (part_002 lines 219-229) and,
verbatim, the `sameColumnItems.length === 0` fallback of the previous variant
(part_001 second file, lines 617-629): walk `filteredData` with its index `i`,
and each time the drag centre is below an item's vertical centre overwrite the
running `insertIndex` with `i + 1`. -/
def fallbackScan (dragCenterY : ℚ) (positions : List (String × ItemPosition)) :
    List MasonryItem → ℕ → ℕ → ℕ
  | [], _, insertIndex => insertIndex
  | item :: rest, i, insertIndex =>
    match positions.lookup item.id with
    | none => fallbackScan dragCenterY positions rest (i + 1) insertIndex
    | some pos =>
      let itemCenterY := pos.y + pos.height / 2
      if dragCenterY > itemCenterY then
        fallbackScan dragCenterY positions rest (i + 1) (i + 1)
      else fallbackScan dragCenterY positions rest (i + 1) insertIndex

/-- `findInsertIndex` (part_002 lines 78-247), the overlap-area resolver.
`currentInsertIndex` may be `-1` (no previous tentative index), hence `ℤ`. -/
def findInsertIndex (dragX dragY dragWidth dragHeight : ℚ)
    (data : List MasonryItem) (positions : List (String × ItemPosition))
    (dragId : String) (currentInsertIndex : ℤ) (numColumns : ℕ)
    (columnGap : ℚ) : ℤ :=
  let dragCenterX := dragX + dragWidth / 2
  let dragCenterY := dragY + dragHeight / 2
  let dragBottom := dragY + dragHeight
  let dragRight := dragX + dragWidth
  let filteredData := data.filter (fun item => item.id != dragId)
  if filteredData.isEmpty then 0
  else
    match (positions.map Prod.snd).head? with
    | none => 0
    | some firstPos =>
      let columnWidth := firstPos.width
      let dragColumn := ⌊dragCenterX / (columnWidth + columnGap)⌋
      let clampedColumn := max 0 (min dragColumn ((numColumns : ℤ) - 1))
      let nearbyData := filteredData.filter (fun item =>
        match positions.lookup item.id with
        | none => false
        | some pos => |pos.y - dragCenterY| < 2000)
      let overlaps := buildOverlaps dragX dragY dragRight dragBottom
        dragCenterY positions filteredData nearbyData 0
      let sorted := overlaps.mergeSort (fun a b => b.overlapArea ≤ a.overlapArea)
      match sorted.find? (fun o => decide (o.overlapArea > 0)) with
      | some primaryOverlap =>
        let pos := primaryOverlap.pos
        let itemCenterY := pos.y + pos.height / 2
        let itemCenterX := pos.x + pos.width / 2
        let isSameColumn := |pos.x - dragX| < columnWidth * 0.5
        if isSameColumn then
          if dragCenterY > itemCenterY then (primaryOverlap.originalIndex : ℤ) + 1
          else (primaryOverlap.originalIndex : ℤ)
        else
          if dragCenterY > itemCenterY + pos.height * 0.3 then
            (primaryOverlap.originalIndex : ℤ) + 1
          else if dragCenterY < itemCenterY - pos.height * 0.3 then
            (primaryOverlap.originalIndex : ℤ)
          else if dragCenterX > itemCenterX then
            (primaryOverlap.originalIndex : ℤ) + 1
          else (primaryOverlap.originalIndex : ℤ)
      | none =>
        let sameColumnItems :=
          (overlaps.filter (fun o =>
            decide (⌊o.pos.x / (columnWidth + columnGap)⌋ = clampedColumn))).mergeSort
            (fun a b => a.pos.y ≤ b.pos.y)
        if sameColumnItems.length > 0 then
          match sameColumnItems.find?
              (fun o => decide (dragCenterY < o.pos.y + o.pos.height * 0.5)) with
          | some o => (o.originalIndex : ℤ)
          | none =>
            match sameColumnItems.getLast? with
            | some lastO => (lastO.originalIndex : ℤ) + 1
            | none => 0
        else
          let insertIndex : ℤ := fallbackScan dragCenterY positions filteredData 0 0
          if 0 ≤ currentInsertIndex ∧ (insertIndex - currentInsertIndex).natAbs = 1 then
            match filteredData.get? (min currentInsertIndex insertIndex).toNat with
            | none => insertIndex
            | some boundaryItem =>
              match positions.lookup boundaryItem.id with
              | none => insertIndex
              | some boundaryPos =>
                let threshold := boundaryPos.height * 0.2
                let boundaryCenterY := boundaryPos.y + boundaryPos.height / 2
                if |dragCenterY - boundaryCenterY| < threshold then currentInsertIndex
                else insertIndex
          else insertIndex

/-- The committed reorder of `handleDragEnd` (part_002 lines 678-689): find the
dragged item, filter it out of the logical order, and splice it back in at the
tentative index.  The surrounding guards (`activeDragId` set,
`targetInsertIndex >= 0`) are preconditions of the call; when the dragged key
is absent the order is left unchanged (the `if (draggedItem)` guard). -/
def handleDragEndCommit (orderedData : List MasonryItem) (activeDragId : String)
    (targetInsertIndex : ℕ) : List MasonryItem :=
  match orderedData.find? (fun item => item.id == activeDragId) with
  | none => orderedData
  | some draggedItem =>
    let withoutDragged := orderedData.filter (fun item => item.id != activeDragId)
    spliceInsert targetInsertIndex draggedItem withoutDragged

/-- One evaluation of the auto-scroll frame callback (part_002 lines 545-615),
as a pure function of the pointer's screen Y, the geometry, the configuration,
and the locked-speed state; it returns the signed `scrollDelta` together with
the new `lockedMaxSpeed` and `autoScrollDirection` state.  `FRAME_TIME` is
1/60.  Modelled over `ℝ` because the speed curve is
`Math.pow(intensity, autoScrollAcceleration)` with the non-integer default
exponent 2.5 (`x ^ y` below is real `rpow`). -/
noncomputable def frameScrollDelta (topThreshold bottomThreshold
    autoScrollMinSpeed autoScrollMaxSpeed autoScrollAcceleration
    autoScrollTargetDuration windowHeight totalContentHeight : ℝ)
    (screenY currentScroll lockedMaxSpeedIn : ℝ) (directionIn : ℤ) :
    ℝ × ℝ × ℤ :=
  if screenY < topThreshold ∧ screenY > 0 then
    let locked0 := if directionIn ≠ -1 then (-1 : ℝ) else lockedMaxSpeedIn
    let locked :=
      if locked0 < 0 then
        min (currentScroll / autoScrollTargetDuration * (1 / 60)) autoScrollMaxSpeed
      else locked0
    let intensity := (topThreshold - screenY) / topThreshold
    let speed := autoScrollMinSpeed +
      (locked - autoScrollMinSpeed) * intensity ^ autoScrollAcceleration
    (-speed, locked, -1)
  else if screenY > windowHeight - bottomThreshold then
    let locked0 := if directionIn ≠ 1 then (-1 : ℝ) else lockedMaxSpeedIn
    let locked :=
      if locked0 < 0 then
        let maxScroll := max 0 (totalContentHeight - windowHeight + 100)
        min ((maxScroll - currentScroll) / autoScrollTargetDuration * (1 / 60))
          autoScrollMaxSpeed
      else locked0
    let intensity := (screenY - (windowHeight - bottomThreshold)) / bottomThreshold
    let speed := autoScrollMinSpeed +
      (locked - autoScrollMinSpeed) * intensity ^ autoScrollAcceleration
    (speed, locked, 1)
  else (0, -1, 0)

end MainList

namespace AltList

/-- The `for (let i = 0; ...)` collection loop of the previous variant's
`findInsertIndex` (part_001 second file, lines 604-613): keep the items of
`filteredData` whose position lies in the dragged item's clamped column,
paired with their index in `filteredData`. -/
def collectSameColumn (clampedColumn : ℤ) (columnWidth columnGap : ℚ)
    (positions : List (String × ItemPosition)) :
    List MasonryItem → ℕ → List (ℕ × ItemPosition)
  | [], _ => []
  | item :: rest, i =>
    match positions.lookup item.id with
    | none => collectSameColumn clampedColumn columnWidth columnGap positions rest (i + 1)
    | some pos =>
      if ⌊pos.x / (columnWidth + columnGap)⌋ = clampedColumn then
        (i, pos) :: collectSameColumn clampedColumn columnWidth columnGap positions rest (i + 1)
      else collectSameColumn clampedColumn columnWidth columnGap positions rest (i + 1)

/-- `findInsertIndex` of the previous flat variant (part_001 second file,
lines 572-646): pure column-affinity resolver, no overlap areas and no
hysteresis (`currentInsertIndex` is accepted and ignored, as in the source).
The empty-`sameColumnItems` fallback loop is the same code as
`MainList.fallbackScan`. -/
def findInsertIndex (dragX dragY dragWidth dragHeight : ℚ)
    (data : List MasonryItem) (positions : List (String × ItemPosition))
    (dragId : String) (currentInsertIndex : ℤ) (numColumns : ℕ)
    (columnGap : ℚ) : ℤ :=
  let dragCenterX := dragX + dragWidth / 2
  let dragCenterY := dragY + dragHeight / 2
  let filteredData := data.filter (fun item => item.id != dragId)
  if filteredData.isEmpty then 0
  else
    match (positions.map Prod.snd).head? with
    | none => 0
    | some firstPos =>
      let columnWidth := firstPos.width
      let dragColumn := ⌊dragCenterX / (columnWidth + columnGap)⌋
      let clampedColumn := max 0 (min dragColumn ((numColumns : ℤ) - 1))
      let sameColumnItems :=
        collectSameColumn clampedColumn columnWidth columnGap positions filteredData 0
      if sameColumnItems.isEmpty then
        (MainList.fallbackScan dragCenterY positions filteredData 0 0 : ℤ)
      else
        let sorted := sameColumnItems.mergeSort (fun a b => a.2.y ≤ b.2.y)
        match sorted.find?
            (fun op => decide (dragCenterY < op.2.y + op.2.height * 1)) with
        | some op => (op.1 : ℤ)
        | none =>
          match sorted.getLast? with
          | some lastOp => (lastOp.1 : ℤ) + 1
          | none => 0

end AltList

namespace BucketList

/-- The per-column totals of the height balancing logic (part_001 first file,
line 399): `col.reduce((sum, item) => sum + item.height + 10, 0)` — the gap is
hard-coded to 10 there. -/
def colHeights (cols : List (List MasonryItem)) : List ℚ :=
  cols.map (fun col => col.foldl (fun sum item => sum + item.height + 10) 0)

/-- The `for (let c = 0; ...)` min/max scan of the balancing loop (part_001
first file, lines 406-409): strict comparisons, so the first index attaining
the minimum (resp. maximum) wins.  `c` is the index of the head of the
remaining list. -/
def minMaxAux : List ℚ → ℕ → ℕ × ℚ → ℕ × ℚ → (ℕ × ℚ) × (ℕ × ℚ)
  | [], _, mn, mx => (mn, mx)
  | h :: t, c, mn, mx =>
    minMaxAux t (c + 1) (if h < mn.2 then (c, h) else mn)
      (if h > mx.2 then (c, h) else mx)

/-- First min and first max of the column heights, as
(`(minColIdx, minH), (maxColIdx, maxH)`).  The source starts from
`Infinity` / `-Infinity` with index `-1`; for a nonempty list the first
iteration always replaces both, which is the `(0, h)` start below.  The empty
case (zero columns) is unreachable through the claims. -/
def findMinMaxCols (heights : List ℚ) : (ℕ × ℚ) × (ℕ × ℚ) :=
  match heights with
  | [] => ((0, 0), (0, 0))
  | h :: t => minMaxAux t 1 (0, h) (0, h)

/-- The max-min spread of the column heights (`maxH - minH` of the balancing
loop). -/
def spread (cols : List (List MasonryItem)) : ℚ :=
  ((findMinMaxCols (colHeights cols)).2).2 - ((findMinMaxCols (colHeights cols)).1).2

/-- One iteration of the height balancing `while` loop of `handleDragChange`
(part_001 first file, lines 395-432): if the spread exceeds
`BALANCE_THRESHOLD = 300`, splice the tallest column's last item (or its
second-to-last when the last is the dragged item `dragId`) out and push it
onto the shortest column.  Returns the new columns and the `heightBalanced`
flag (`true` exactly when the loop would stop). -/
def balanceStep (cols : List (List MasonryItem)) (dragId : String) :
    List (List MasonryItem) × Bool :=
  let heights := colHeights cols
  if heights.isEmpty then (cols, true)
  else
    let minColIdx := ((findMinMaxCols heights).1).1
    let maxColIdx := ((findMinMaxCols heights).2).1
    let minH := ((findMinMaxCols heights).1).2
    let maxH := ((findMinMaxCols heights).2).2
    if maxH - minH > 300 then
      let tallCol := cols.getD maxColIdx []
      if tallCol.isEmpty then (cols, true)
      else
        match tallCol.getLast? with
        | none => (cols, true)
        | some itemToMove =>
          let itemToMoveIdx : ℤ :=
            if itemToMove.id == dragId then (tallCol.length : ℤ) - 2
            else (tallCol.length : ℤ) - 1
          if 0 ≤ itemToMoveIdx then
            match tallCol.get? itemToMoveIdx.toNat with
            | none => (cols, true)
            | some balancingItem =>
              let cols1 := cols.set maxColIdx (tallCol.eraseIdx itemToMoveIdx.toNat)
              (cols1.set minColIdx ((cols1.getD minColIdx []) ++ [balancingItem]),
                false)
          else (cols, true)
    else (cols, true)

/-- The whole balancing `while (!heightBalanced && iterations < 2)` loop: the
guard lets at most two iterations run, and the loop stops early when an
iteration sets `heightBalanced` (in which case that iteration did not move
anything and returned the columns unchanged). -/
def heightBalance (cols : List (List MasonryItem)) (dragId : String) :
    List (List MasonryItem) :=
  let s1 := balanceStep cols dragId
  if s1.2 then s1.1 else (balanceStep s1.1 dragId).1

end BucketList

/-! Helper lemmas shared by several claims. -/

/-- Concrete buckets used by the C1 witness. -/
def witnessCols : List (List MasonryItem) := [[⟨"a",100⟩, ⟨"c",120⟩], [⟨"b",150⟩]]

/-- Concrete flat data used by several witnesses. -/
def witnessData : List MasonryItem := [⟨"a",100⟩, ⟨"b",150⟩, ⟨"c",120⟩]

/-- The flat calculator emits exactly one position entry per input item, in
input order, keyed by the item's id. -/
theorem calcLayoutGo_map_fst (cw rg cg : ℚ) (data : List MasonryItem)
    (heights : List ℚ) :
    ((MainList.calcLayoutGo cw rg cg data heights).1).map Prod.fst =
      data.map MasonryItem.id := by
  induction data generalizing heights with
  | nil => rfl
  | cons item rest ih => simp [MainList.calcLayoutGo, ih]

/-- Keys of `calculateLayout`'s position map are the input ids, in order. -/
theorem calculateLayout_keys (data : List MasonryItem) (numColumns : ℕ)
    (containerWidth rowGap columnGap : ℚ) :
    ((MainList.calculateLayout data numColumns containerWidth rowGap
        columnGap).positions).map Prod.fst = data.map MasonryItem.id := by
  simp only [MainList.calculateLayout]
  exact calcLayoutGo_map_fst _ _ _ _ _

/-- One bucket pass emits exactly one entry per bucket item, in order. -/
theorem stackColumn_map_fst (ci : ℕ) (cw gap : ℚ) (items : List MasonryItem)
    (y : ℚ) :
    ((Masonry.stackColumn ci cw gap items y).map Prod.fst) =
      items.map MasonryItem.id := by
  induction items generalizing y with
  | nil => rfl
  | cons item rest ih => simp [Masonry.stackColumn, ih]

/-- Keys of `calculateColumnLayout`'s position map are the ids of the
flattened buckets, in order. -/
theorem calculateColumnLayout_keys (columns : List (List MasonryItem))
    (numColumns : ℕ) (containerWidth gap : ℚ) :
    ((Masonry.calculateColumnLayout columns numColumns containerWidth
        gap).positions).map Prod.fst = (columns.flatten).map MasonryItem.id := by
  simp only [Masonry.calculateColumnLayout]
  have h : ∀ (l : List (ℕ × List MasonryItem)),
      (((l.map (fun ci => Masonry.stackColumn ci.1
          (columnWidthOf containerWidth gap numColumns) gap ci.2 0)).flatten).map
        Prod.fst) = ((l.map Prod.snd).flatten).map MasonryItem.id := by
    intro l
    induction l with
    | nil => rfl
    | cons hd tl ih => simp [stackColumn_map_fst, ih]
  have h2 := h columns.enum
  rwa [List.enum_map_snd] at h2

/-- C1.  For distinct input keys, any column count ≥ 1 and non-negative
heights, both layout calculators return a position map whose key list is
exactly the input key list (so no key is dropped and none is duplicated),
and that key list has no duplicates. -/
theorem claim1_layout_coverage (columns : List (List MasonryItem))
    (data : List MasonryItem) (numColumns : ℕ)
    (containerWidth gap rowGap columnGap : ℚ)
    (hN : 1 ≤ numColumns)
    (hhb : ∀ it ∈ columns.flatten, 0 ≤ it.height)
    (hhf : ∀ it ∈ data, 0 ≤ it.height)
    (hub : ((columns.flatten).map MasonryItem.id).Nodup)
    (huf : (data.map MasonryItem.id).Nodup) :
    (((Masonry.calculateColumnLayout columns numColumns containerWidth
          gap).positions).map Prod.fst = (columns.flatten).map MasonryItem.id ∧
      (((Masonry.calculateColumnLayout columns numColumns containerWidth
          gap).positions).map Prod.fst).Nodup) ∧
    (((MainList.calculateLayout data numColumns containerWidth rowGap
          columnGap).positions).map Prod.fst = data.map MasonryItem.id ∧
      (((MainList.calculateLayout data numColumns containerWidth rowGap
          columnGap).positions).map Prod.fst).Nodup) := by
  refine ⟨⟨calculateColumnLayout_keys .., ?_⟩, calculateLayout_keys .., ?_⟩
  · rw [calculateColumnLayout_keys]; exact hub
  · rw [calculateLayout_keys]; exact huf

/-- Full characterisation of the shortest-column scan: the tracked value never
exceeds the start value or any scanned element, and the result is either the
untouched start pair or the pair at some scanned offset `k` whose value is
below the start value and strictly below every element scanned before it. -/
theorem findShortestAux_spec (t : List ℚ) :
    ∀ (c shortest : ℕ) (minVal : ℚ),
      (Masonry.findShortestAux t c shortest minVal).2 ≤ minVal ∧
      (∀ x ∈ t, (Masonry.findShortestAux t c shortest minVal).2 ≤ x) ∧
      (Masonry.findShortestAux t c shortest minVal = (shortest, minVal) ∨
        ∃ k, ∃ hk : k < t.length,
          Masonry.findShortestAux t c shortest minVal = (c + k, t.get ⟨k, hk⟩) ∧
          t.get ⟨k, hk⟩ < minVal ∧
          ∀ j, ∀ hj : j < t.length, j < k →
            t.get ⟨k, hk⟩ < t.get ⟨j, hj⟩) := by
  induction t with
  | nil =>
    intro c shortest minVal
    refine ⟨le_refl _, ?_, Or.inl rfl⟩
    intro x hx
    cases hx
  | cons h t ih =>
    intro c shortest minVal
    by_cases hlt : h < minVal
    · rw [show Masonry.findShortestAux (h :: t) c shortest minVal =
          Masonry.findShortestAux t (c + 1) c h from by
        simp [Masonry.findShortestAux, hlt]]
      obtain ⟨ih1, ih2, ih3⟩ := ih (c + 1) c h
      refine ⟨ih1.trans hlt.le, ?_, ?_⟩
      · intro x hx
        rcases List.mem_cons.mp hx with rfl | hx
        · exact ih1
        · exact ih2 x hx
      · rcases ih3 with heq | ⟨k, hk, heq, hval, hpre⟩
        · refine Or.inr ⟨0, by simp, ?_, hlt, ?_⟩
          · simpa using heq
          · intro j hj hj0; omega
        · refine Or.inr ⟨k + 1, by simp; omega, ?_, hval.trans hlt, ?_⟩
          · rw [heq]
            simp only [Prod.mk.injEq]
            exact ⟨by omega, rfl⟩
          · intro j hj hjk
            match j with
            | 0 => exact hval
            | j' + 1 => exact hpre j' (by simpa using hj) (by omega)
    · rw [show Masonry.findShortestAux (h :: t) c shortest minVal =
          Masonry.findShortestAux t (c + 1) shortest minVal from by
        simp [Masonry.findShortestAux, hlt]]
      obtain ⟨ih1, ih2, ih3⟩ := ih (c + 1) shortest minVal
      refine ⟨ih1, ?_, ?_⟩
      · intro x hx
        rcases List.mem_cons.mp hx with rfl | hx
        · exact ih1.trans (not_lt.mp hlt)
        · exact ih2 x hx
      · rcases ih3 with heq | ⟨k, hk, heq, hval, hpre⟩
        · exact Or.inl heq
        · refine Or.inr ⟨k + 1, by simp; omega, ?_, hval, ?_⟩
          · rw [heq]
            simp only [Prod.mk.injEq]
            exact ⟨by omega, rfl⟩
          · intro j hj hjk
            match j with
            | 0 => exact hval.trans_le (not_lt.mp hlt)
            | j' + 1 => exact hpre j' (by simpa using hj) (by omega)

/-- `findShortest` returns an in-range index attaining the minimum of the
heights, and every strictly earlier column is strictly taller (so ties go to
the lowest index). -/
theorem findShortest_spec (heights : List ℚ) (hne : heights ≠ []) :
    Masonry.findShortest heights < heights.length ∧
    (∀ j, j < heights.length →
      heights.getD (Masonry.findShortest heights) 0 ≤ heights.getD j 0) ∧
    (∀ j, j < Masonry.findShortest heights →
      heights.getD (Masonry.findShortest heights) 0 < heights.getD j 0) := by
  match heights, hne with
  | h :: t, _ =>
    obtain ⟨s1, s2, s3⟩ := findShortestAux_spec t 1 0 h
    have haux : Masonry.findShortest (h :: t) = (Masonry.findShortestAux t 1 0 h).1 := rfl
    have hgetD : ∀ (j' : ℕ), j' < t.length → (h :: t).getD (j' + 1) 0 = t.getD j' 0 :=
      fun j' _ => List.getD_cons_succ
    rcases s3 with heq | ⟨k, hk, heq, hval, hpre⟩
    · have hi0 : Masonry.findShortest (h :: t) = 0 := by rw [haux, heq]
      rw [hi0]
      refine ⟨by simp, ?_, ?_⟩
      · intro j hj
        rw [List.getD_cons_zero]
        match j with
        | 0 => rw [List.getD_cons_zero]
        | j' + 1 =>
          have hj' : j' < t.length := by simp at hj; omega
          have hs := s2 (t.get ⟨j', hj'⟩) (List.get_mem t j' hj')
          rw [heq] at hs
          rw [hgetD j' hj', List.getD_eq_get t 0 hj']
          exact hs
      · intro j hj; omega
    · have hik : Masonry.findShortest (h :: t) = 1 + k := by rw [haux, heq]
      have h1k : 1 + k = k + 1 := Nat.add_comm 1 k
      have hget : (h :: t).getD (Masonry.findShortest (h :: t)) 0 = t.get ⟨k, hk⟩ := by
        rw [hik, h1k, List.getD_cons_succ, List.getD_eq_get t 0 hk]
      refine ⟨by rw [hik]; simp; omega, ?_, ?_⟩
      · intro j hj
        rw [hget]
        match j with
        | 0 =>
          rw [List.getD_cons_zero]
          have hs := s1
          rw [heq] at hs
          exact hs
        | j' + 1 =>
          have hj' : j' < t.length := by simp at hj; omega
          have hs := s2 (t.get ⟨j', hj'⟩) (List.get_mem t j' hj')
          rw [heq] at hs
          rw [hgetD j' hj', List.getD_eq_get t 0 hj']
          exact hs
      · intro j hj
        rw [hik] at hj
        rw [hget]
        match j with
        | 0 => rw [List.getD_cons_zero]; exact hval
        | j' + 1 =>
          have hj' : j' < t.length := by omega
          have hs := hpre j' hj' (by omega)
          rw [hgetD j' hj', List.getD_eq_get t 0 hj']
          exact hs

/-- C2.  `distributeToColumns` processes items in input order; each item is
appended to the column returned by `findShortest`, which is the least index
attaining the minimum of the running totals (strictly earlier columns are
strictly taller), and only `item.height` — no gap — is added to that total.
On `[{a,100},{b,150},{c,120},{d,80}]` with 2 columns the buckets are
`[[a,c],[b,d]]`. -/
theorem claim2_distribute (heights : List ℚ) (hne : heights ≠ []) :
    (Masonry.findShortest heights < heights.length ∧
      (∀ j, j < heights.length →
        heights.getD (Masonry.findShortest heights) 0 ≤ heights.getD j 0) ∧
      (∀ j, j < Masonry.findShortest heights →
        heights.getD (Masonry.findShortest heights) 0 < heights.getD j 0)) ∧
    (∀ (item : MasonryItem) (rest : List MasonryItem)
        (columns : List (List MasonryItem)) (columnHeights : List ℚ),
      Masonry.distributeGo (item :: rest) columns columnHeights =
        Masonry.distributeGo rest
          (columns.set (Masonry.findShortest columnHeights)
            ((columns.getD (Masonry.findShortest columnHeights) []) ++ [item]))
          (columnHeights.set (Masonry.findShortest columnHeights)
            ((columnHeights.getD (Masonry.findShortest columnHeights) 0) +
              item.height))) ∧
    Masonry.distributeToColumns [⟨"a",100⟩, ⟨"b",150⟩, ⟨"c",120⟩, ⟨"d",80⟩] 2 =
      [[⟨"a",100⟩, ⟨"c",120⟩], [⟨"b",150⟩, ⟨"d",80⟩]] := by
  refine ⟨findShortest_spec heights hne, fun item rest columns columnHeights => rfl, ?_⟩
  norm_num [Masonry.distributeToColumns, Masonry.distributeGo,
    Masonry.findShortest, Masonry.findShortestAux, List.replicate, List.set,
    List.getD]

/-- Witness for C2 at the concrete running totals `[100, 0]` (column 1 is
shortest). -/
theorem claim2_witness :
    ([(100:ℚ), 0] ≠ [] ∧ Masonry.findShortest [(100:ℚ), 0] = 1) ∧
    ((Masonry.findShortest [(100:ℚ), 0] < ([(100:ℚ), 0] : List ℚ).length ∧
      (∀ j, j < ([(100:ℚ), 0] : List ℚ).length →
        ([(100:ℚ), 0] : List ℚ).getD (Masonry.findShortest [(100:ℚ), 0]) 0 ≤
          ([(100:ℚ), 0] : List ℚ).getD j 0) ∧
      (∀ j, j < Masonry.findShortest [(100:ℚ), 0] →
        ([(100:ℚ), 0] : List ℚ).getD (Masonry.findShortest [(100:ℚ), 0]) 0 <
          ([(100:ℚ), 0] : List ℚ).getD j 0)) ∧
    (∀ (item : MasonryItem) (rest : List MasonryItem)
        (columns : List (List MasonryItem)) (columnHeights : List ℚ),
      Masonry.distributeGo (item :: rest) columns columnHeights =
        Masonry.distributeGo rest
          (columns.set (Masonry.findShortest columnHeights)
            ((columns.getD (Masonry.findShortest columnHeights) []) ++ [item]))
          (columnHeights.set (Masonry.findShortest columnHeights)
            ((columnHeights.getD (Masonry.findShortest columnHeights) 0) +
              item.height))) ∧
    Masonry.distributeToColumns [⟨"a",100⟩, ⟨"b",150⟩, ⟨"c",120⟩, ⟨"d",80⟩] 2 =
      [[⟨"a",100⟩, ⟨"c",120⟩], [⟨"b",150⟩, ⟨"d",80⟩]]) := by
  have hne : [(100:ℚ), 0] ≠ [] := by simp
  refine ⟨⟨hne, ?_⟩, claim2_distribute [(100:ℚ), 0] hne⟩
  norm_num [Masonry.findShortest, Masonry.findShortestAux]

/-- Splice-insertion at any index yields a permutation of consing the
element. -/
theorem spliceInsert_perm {α : Type*} (n : ℕ) (a : α) (l : List α) :
    (spliceInsert n a l).Perm (a :: l) := by
  unfold spliceInsert
  exact (List.perm_middle).trans (by rw [List.take_append_drop])

/-- Splice-insertion grows the length by exactly one (the JS index clamping
makes this hold for every index). -/
theorem spliceInsert_length {α : Type*} (n : ℕ) (a : α) (l : List α) :
    (spliceInsert n a l).length = l.length + 1 := by
  simpa using (spliceInsert_perm n a l).length_eq

/-- The element spliced in at an in-range index sits at that index. -/
theorem spliceInsert_getElem_self {α : Type*} (n : ℕ) (a : α) (l : List α)
    (hn : n ≤ l.length) (hlt : n < (spliceInsert n a l).length) :
    (spliceInsert n a l)[n] = a := by
  unfold spliceInsert at hlt ⊢
  have hlen : (l.take n).length = n := by simp [hn]
  rw [List.getElem_append_right (by omega)]
  simp [hlen]

/-- Erasing at the index right after a prefix of that length removes the head
of the suffix. -/
theorem eraseIdx_append_cons {α : Type*} (p : List α) (x : α) (q : List α) :
    (p ++ x :: q).eraseIdx p.length = p ++ q := by
  induction p with
  | nil => rfl
  | cons h t ih => simpa [List.eraseIdx] using ih

/-- C8.  Moving the item at index `i` to index `j` and then moving the item
now at `j` back to `i` restores the original list, for any list of length ≥ 2
and valid indices. -/
theorem claim8_reorder_roundtrip {α : Type*} (l : List α) (i j : ℕ)
    (hlen : 2 ≤ l.length) (hi : i < l.length) (hj : j < l.length) :
    Masonry.reorderItems (Masonry.reorderItems l i j) j i = l := by
  unfold Masonry.reorderItems
  rw [dif_pos hi]
  set m := l.eraseIdx i with hm
  have hmlen : m.length = l.length - 1 := by
    rw [hm, List.length_eraseIdx]
    simp [hi]
  have hjm : j ≤ m.length := by omega
  have hr1len : (spliceInsert j l[i] m).length = l.length := by
    rw [spliceInsert_length]; omega
  have hjr : j < (spliceInsert j l[i] m).length := by omega
  rw [dif_pos hjr]
  have hself : (spliceInsert j l[i] m)[j] = l[i] :=
    spliceInsert_getElem_self j l[i] m hjm hjr
  have herase : (spliceInsert j l[i] m).eraseIdx j = m := by
    have htk : (l.eraseIdx i).take j = m.take j := by rw [hm]
    have hlen2 : (m.take j).length = j := by simp [hjm]
    calc (spliceInsert j l[i] m).eraseIdx j
        = ((m.take j) ++ l[i] :: m.drop j).eraseIdx (m.take j).length := by
          rw [hlen2]; rfl
      _ = m.take j ++ m.drop j := eraseIdx_append_cons _ _ _
      _ = m := List.take_append_drop _ _
  rw [hself, herase]
  have hmtake : m.take i = l.take i := by
    rw [hm, List.eraseIdx_eq_take_drop_succ]
    exact List.take_left' (by simp [hi.le])
  have hmdrop : m.drop i = l.drop (i + 1) := by
    rw [hm, List.eraseIdx_eq_take_drop_succ]
    exact List.drop_left' (by simp [hi.le])
  show m.take i ++ l[i] :: m.drop i = l
  rw [hmtake, hmdrop, List.getElem_cons_drop l i hi, List.take_append_drop]

/-- Witness for C8 at the concrete list `[10, 20, 30]`, `i = 0`, `j = 2`. -/
theorem claim8_witness :
    (2 ≤ ([10, 20, 30] : List ℕ).length ∧ 0 < ([10, 20, 30] : List ℕ).length ∧
      2 < ([10, 20, 30] : List ℕ).length) ∧
    Masonry.reorderItems (Masonry.reorderItems ([10, 20, 30] : List ℕ) 0 2) 2 0 =
      [10, 20, 30] := by
  refine ⟨⟨by norm_num, by norm_num, by norm_num⟩, ?_⟩
  exact claim8_reorder_roundtrip [10, 20, 30] 0 2 (by norm_num) (by norm_num)
    (by norm_num)

/-- In a list containing exactly one item with the given id, `find?` locates
it and the whole list is a permutation of that item consed onto the list with
the id filtered out. -/
theorem find_filter_perm (a : String) :
    ∀ (l : List MasonryItem), (l.map MasonryItem.id).count a = 1 →
      ∃ d, l.find? (fun it => it.id == a) = some d ∧
        l.Perm (d :: l.filter (fun it => it.id != a)) := by
  intro l
  induction l with
  | nil => intro h; simp at h
  | cons it rest ih =>
    intro hcount
    by_cases hid : it.id = a
    · have hcr : (rest.map MasonryItem.id).count a = 0 := by
        rw [List.map_cons, List.count_cons] at hcount
        simp [hid] at hcount
        exact hcount
      have hrest : rest.filter (fun it => it.id != a) = rest := by
        rw [List.filter_eq_self]
        intro x hx
        have hxa : x.id ≠ a := by
          intro hxa
          rw [List.count_eq_zero] at hcr
          exact hcr (by simpa [hxa] using List.mem_map_of_mem MasonryItem.id hx)
        simpa using hxa
      refine ⟨it, ?_, ?_⟩
      · rw [List.find?_cons_of_pos _ (by simpa using hid)]
      · rw [List.filter_cons_of_neg (by simpa using hid), hrest]
    · have hcr : (rest.map MasonryItem.id).count a = 1 := by
        rw [List.map_cons, List.count_cons] at hcount
        simpa [hid] using hcount
      obtain ⟨d, hfind, hperm⟩ := ih hcr
      refine ⟨d, ?_, ?_⟩
      · rw [List.find?_cons_of_neg _ (by simpa using hid)]
        exact hfind
      · rw [List.filter_cons_of_pos (by simpa using hid)]
        exact ((hperm.cons it).trans (List.Perm.swap d it _))

/-- C7.  When the dragged key occurs exactly once in the pre-drag logical
order, the commit performed by `handleDragEnd` returns a list of the same
length, a permutation of the original (a pure reorder, no insertions or
drops), and in particular with exactly the same key set. -/
theorem claim7_commit_reorder (orderedData : List MasonryItem)
    (activeDragId : String) (targetInsertIndex : ℕ)
    (hcount : (orderedData.map MasonryItem.id).count activeDragId = 1) :
    (MainList.handleDragEndCommit orderedData activeDragId
        targetInsertIndex).length = orderedData.length ∧
    (MainList.handleDragEndCommit orderedData activeDragId
        targetInsertIndex).Perm orderedData ∧
    (∀ k : String,
      k ∈ (MainList.handleDragEndCommit orderedData activeDragId
        targetInsertIndex).map MasonryItem.id ↔
      k ∈ orderedData.map MasonryItem.id) := by
  obtain ⟨d, hfind, hperm⟩ := find_filter_perm activeDragId orderedData hcount
  have hcommit : MainList.handleDragEndCommit orderedData activeDragId
      targetInsertIndex = spliceInsert targetInsertIndex d
      (orderedData.filter (fun it => it.id != activeDragId)) := by
    unfold MainList.handleDragEndCommit
    rw [hfind]
  have hp : (MainList.handleDragEndCommit orderedData activeDragId
      targetInsertIndex).Perm orderedData := by
    rw [hcommit]
    exact (spliceInsert_perm _ _ _).trans hperm.symm
  refine ⟨hp.length_eq, hp, ?_⟩
  intro k
  exact (hp.map MasonryItem.id).mem_iff

/-- Witness for C7: order `[a, b, c]`, dragged key `"b"`, tentative index 2. -/
theorem claim7_witness :
    ((witnessData.map MasonryItem.id).count "b" = 1) ∧
    ((MainList.handleDragEndCommit witnessData "b" 2).length =
        witnessData.length ∧
      (MainList.handleDragEndCommit witnessData "b" 2).Perm witnessData ∧
      (∀ k : String,
        k ∈ (MainList.handleDragEndCommit witnessData "b" 2).map
          MasonryItem.id ↔ k ∈ witnessData.map MasonryItem.id)) := by
  have hcount : (witnessData.map MasonryItem.id).count "b" = 1 := by
    simp [witnessData, List.count_cons]
  exact ⟨hcount, claim7_commit_reorder witnessData "b" 2 hcount⟩

/-- Every entry a bucket pass emits has the computed column width, lies in
column `ci`, and has `x = column × (width + gap)`. -/
theorem stackColumn_geom (ci : ℕ) (cw gap : ℚ) (items : List MasonryItem)
    (y : ℚ) :
    ∀ p ∈ Masonry.stackColumn ci cw gap items y,
      p.2.width = cw ∧ p.2.column = ci ∧
        p.2.x = (p.2.column : ℚ) * (cw + gap) := by
  induction items generalizing y with
  | nil => intro p hp; simp [Masonry.stackColumn] at hp
  | cons item rest ih =>
    intro p hp
    rcases List.mem_cons.mp hp with rfl | hp
    · exact ⟨rfl, rfl, rfl⟩
    · exact ih _ p hp

/-- Every entry of the bucket calculator satisfies the width and x formulas. -/
theorem calculateColumnLayout_geom (columns : List (List MasonryItem))
    (numColumns : ℕ) (containerWidth gap : ℚ) :
    ∀ p ∈ (Masonry.calculateColumnLayout columns numColumns containerWidth
        gap).positions,
      p.2.width = columnWidthOf containerWidth gap numColumns ∧
        p.2.x = (p.2.column : ℚ) *
          (columnWidthOf containerWidth gap numColumns + gap) := by
  intro p hp
  simp only [Masonry.calculateColumnLayout, List.mem_flatten, List.mem_map] at hp
  obtain ⟨l, ⟨ci, _, rfl⟩, hpl⟩ := hp
  obtain ⟨h1, _, h3⟩ := stackColumn_geom ci.1 _ gap ci.2 0 p hpl
  exact ⟨h1, h3⟩

/-- Every entry of the flat calculator satisfies the width and x formulas. -/
theorem calcLayoutGo_geom (cw rg cg : ℚ) (data : List MasonryItem)
    (heights : List ℚ) :
    ∀ p ∈ (MainList.calcLayoutGo cw rg cg data heights).1,
      p.2.width = cw ∧ p.2.x = (p.2.column : ℚ) * (cw + cg) := by
  induction data generalizing heights with
  | nil => intro p hp; cases hp
  | cons item rest ih =>
    intro p hp
    simp only [MainList.calcLayoutGo, List.mem_cons] at hp
    rcases hp with hp | hp
    · subst hp; exact ⟨rfl, rfl⟩
    · exact ih _ p hp

/-- `getD 0` after `set` at the same in-range index reads the new value. -/
theorem getD_set_self (l : List ℚ) (m : ℕ) (v : ℚ) (h : m < l.length) :
    (l.set m v).getD m 0 = v := by
  rw [List.getD_eq_getElem?_getD, List.getElem?_set_self h]
  rfl

/-- `getD 0` after `set` at a different index is unchanged. -/
theorem getD_set_ne (l : List ℚ) (m c : ℕ) (v : ℚ) (hne : c ≠ m) :
    (l.set m v).getD c 0 = l.getD c 0 := by
  rw [List.getD_eq_getElem?_getD, List.getD_eq_getElem?_getD,
    List.getElem?_set_ne (fun h => hne h.symm)]

/-- Within one bucket pass, the `y` of the `k`-th emitted entry is the start
height plus the sum of `(height + gap)` over the earlier entries of that
pass. -/
theorem stackColumn_y (ci : ℕ) (cw gap : ℚ) (items : List MasonryItem) :
    ∀ (y0 : ℚ) (k : ℕ) (hk : k < (Masonry.stackColumn ci cw gap items y0).length),
      ((Masonry.stackColumn ci cw gap items y0).get ⟨k, hk⟩).2.y =
        y0 + (((Masonry.stackColumn ci cw gap items y0).take k).map
          (fun p => p.2.height + gap)).sum := by
  induction items with
  | nil => intro y0 k hk; simp [Masonry.stackColumn] at hk
  | cons item rest ih =>
    intro y0 k hk
    match k with
    | 0 => simp [Masonry.stackColumn]
    | k' + 1 =>
      have hk' : k' < (Masonry.stackColumn ci cw gap rest
          (y0 + item.height + gap)).length := by
        simpa [Masonry.stackColumn] using hk
      have hih := ih (y0 + item.height + gap) k' hk'
      simp only [Masonry.stackColumn, List.get_cons_succ, List.take_succ_cons,
        List.map_cons, List.sum_cons] at hih ⊢
      rw [hih]; ring

/-- Filtering the whole bucket layout down to one column index recovers
exactly that bucket's pass (generalised over the enumeration start). -/
theorem bucket_filter_enumFrom (cw gap : ℚ) (ci : ℕ) :
    ∀ (cols : List (List MasonryItem)) (s : ℕ),
      ((((cols.enumFrom s).map
          (fun cj => Masonry.stackColumn cj.1 cw gap cj.2 0)).flatten).filter
        (fun p => p.2.column == ci)) =
      Masonry.stackColumn ci cw gap
        (if s ≤ ci then cols.getD (ci - s) [] else []) 0 := by
  intro cols
  induction cols with
  | nil =>
    intro s
    by_cases hs : s ≤ ci <;> simp [hs, Masonry.stackColumn, List.getD]
  | cons col cols' ih =>
    intro s
    rw [List.enumFrom_cons]
    simp only [List.map_cons, List.flatten_cons, List.filter_append]
    by_cases hs : s = ci
    · subst hs
      have h1 : (Masonry.stackColumn s cw gap col 0).filter
          (fun p => p.2.column == s) = Masonry.stackColumn s cw gap col 0 := by
        rw [List.filter_eq_self]
        intro p hp
        have := (stackColumn_geom s cw gap col 0 p hp).2.1
        simp [this]
      rw [h1, ih (s + 1), if_neg (by omega), if_pos (le_refl s)]
      simp [Masonry.stackColumn]
    · have h1 : (Masonry.stackColumn s cw gap col 0).filter
          (fun p => p.2.column == ci) = [] := by
        rw [List.filter_eq_nil_iff]
        intro p hp
        have := (stackColumn_geom s cw gap col 0 p hp).2.1
        simp [this, hs]
      rw [h1, ih (s + 1), List.nil_append]
      have hlist : (if s + 1 ≤ ci then cols'.getD (ci - (s + 1)) [] else []) =
          (if s ≤ ci then (col :: cols').getD (ci - s) [] else []) := by
        by_cases hsc : s ≤ ci
        · rw [if_pos (by omega), if_pos hsc]
          have hcs : ci - s = (ci - (s + 1)) + 1 := by omega
          rw [hcs, List.getD_cons_succ]
        · rw [if_neg (by omega), if_neg hsc]
      rw [hlist]

/-- Filtering `calculateColumnLayout`'s position list to one column index
yields exactly that bucket's stacking pass. -/
theorem calculateColumnLayout_filter (cols : List (List MasonryItem))
    (numColumns : ℕ) (containerWidth gap : ℚ) (ci : ℕ) :
    (((Masonry.calculateColumnLayout cols numColumns containerWidth
        gap).positions).filter (fun p => p.2.column == ci)) =
      Masonry.stackColumn ci (columnWidthOf containerWidth gap numColumns) gap
        (cols.getD ci []) 0 := by
  show ((((List.enum cols).map _).flatten).filter _) = _
  rw [List.enum_eq_enumFrom, bucket_filter_enumFrom, if_pos (Nat.zero_le ci)]
  simp

/-- The flat calculator's column-`c` entries, in placement order, have `y`
equal to the accumulated start height of column `c` plus the sum of
`(height + rowGap)` over the earlier column-`c` entries. -/
theorem calcLayoutGo_stack_y (cw rg cg : ℚ) :
    ∀ (data : List MasonryItem) (heights : List ℚ) (c : ℕ), c < heights.length →
      ∀ (k : ℕ)
        (hk : k < (((MainList.calcLayoutGo cw rg cg data heights).1).filter
          (fun p => p.2.column == c)).length),
        ((((MainList.calcLayoutGo cw rg cg data heights).1).filter
            (fun p => p.2.column == c)).get ⟨k, hk⟩).2.y =
          heights.getD c 0 +
            (((((MainList.calcLayoutGo cw rg cg data heights).1).filter
              (fun p => p.2.column == c)).take k).map
                (fun p => p.2.height + rg)).sum := by
  intro data
  induction data with
  | nil => intro heights c hc k hk; simp [MainList.calcLayoutGo] at hk
  | cons item rest ih =>
    intro heights c hc k hk
    have hne : heights ≠ [] := by
      intro h; rw [h] at hc; simp at hc
    have hm : Masonry.findShortest heights < heights.length :=
      (findShortest_spec heights hne).1
    have hlen' : c < (heights.set (Masonry.findShortest heights)
        (heights.getD (Masonry.findShortest heights) 0 + item.height +
          rg)).length := by
      rw [List.length_set]; exact hc
    by_cases hcm : c = Masonry.findShortest heights
    · have hfc : (((MainList.calcLayoutGo cw rg cg (item :: rest) heights).1).filter
          (fun p => p.2.column == c)) =
          (item.id,
            ({ x := (Masonry.findShortest heights : ℚ) * (cw + cg)
               y := heights.getD (Masonry.findShortest heights) 0
               width := cw
               height := item.height
               column := Masonry.findShortest heights } : ItemPosition)) ::
          (((MainList.calcLayoutGo cw rg cg rest
            (heights.set (Masonry.findShortest heights)
              (heights.getD (Masonry.findShortest heights) 0 + item.height +
                rg))).1).filter (fun p => p.2.column == c)) := by
        simp only [MainList.calcLayoutGo]
        rw [List.filter_cons_of_pos (by simp [hcm])]
      rw [List.get_of_eq hfc ⟨k, hk⟩]
      conv_rhs => rw [hfc]
      have hkL := hfc ▸ hk
      match k with
      | 0 => simp [hcm]
      | k' + 1 =>
        have hk' : k' < (((MainList.calcLayoutGo cw rg cg rest
            (heights.set (Masonry.findShortest heights)
              (heights.getD (Masonry.findShortest heights) 0 + item.height +
                rg))).1).filter (fun p => p.2.column == c)).length := by
          simpa using hkL
        have hih := ih _ c hlen' k' hk'
        simp only [List.get_cons_succ, List.take_succ_cons, List.map_cons,
          List.sum_cons] at hih ⊢
        rw [hih, hcm, getD_set_self _ _ _ hm]
        ring
    · have hfc : (((MainList.calcLayoutGo cw rg cg (item :: rest) heights).1).filter
          (fun p => p.2.column == c)) =
          (((MainList.calcLayoutGo cw rg cg rest
            (heights.set (Masonry.findShortest heights)
              (heights.getD (Masonry.findShortest heights) 0 + item.height +
                rg))).1).filter (fun p => p.2.column == c)) := by
        simp only [MainList.calcLayoutGo]
        rw [List.filter_cons_of_neg (by simp; omega)]
      rw [List.get_of_eq hfc ⟨k, hk⟩]
      conv_rhs => rw [hfc]
      have hkL := hfc ▸ hk
      have hih := ih _ c hlen' k hkL
      rw [hih, getD_set_ne _ _ _ _ hcm]

/-- C3.  In both calculators, the `y` of the `k`-th item of any column equals
the sum of `(height + gap)` (resp. `(height + rowGap)`) over the earlier items
of that column; in particular the first item of each column has `y = 0`.  The
items of one column, in stacking order, are obtained by filtering the position
list to that column index. -/
theorem claim3_stacking (cols : List (List MasonryItem))
    (data : List MasonryItem) (numColumns : ℕ)
    (containerWidth gap rowGap columnGap : ℚ) (c : ℕ)
    (hN : 1 ≤ numColumns) (hc : c < numColumns) :
    (∀ (ci k : ℕ)
      (hk : k < (((Masonry.calculateColumnLayout cols numColumns containerWidth
        gap).positions).filter (fun p => p.2.column == ci)).length),
      ((((Masonry.calculateColumnLayout cols numColumns containerWidth
          gap).positions).filter (fun p => p.2.column == ci)).get ⟨k, hk⟩).2.y =
        (((((Masonry.calculateColumnLayout cols numColumns containerWidth
          gap).positions).filter (fun p => p.2.column == ci)).take k).map
            (fun p => p.2.height + gap)).sum) ∧
    (∀ (k : ℕ)
      (hk : k < (((MainList.calculateLayout data numColumns containerWidth
        rowGap columnGap).positions).filter (fun p => p.2.column == c)).length),
      ((((MainList.calculateLayout data numColumns containerWidth rowGap
          columnGap).positions).filter (fun p => p.2.column == c)).get
            ⟨k, hk⟩).2.y =
        (((((MainList.calculateLayout data numColumns containerWidth rowGap
          columnGap).positions).filter (fun p => p.2.column == c)).take k).map
            (fun p => p.2.height + rowGap)).sum) := by
  constructor
  · intro ci k hk
    have hF := calculateColumnLayout_filter cols numColumns containerWidth gap ci
    rw [List.get_of_eq hF ⟨k, hk⟩]
    conv_rhs => rw [hF]
    have hkL := hF ▸ hk
    have h := stackColumn_y ci (columnWidthOf containerWidth gap numColumns)
      gap (cols.getD ci []) 0 k hkL
    rw [zero_add] at h
    exact h
  · intro k hk
    have hrep : c < (List.replicate numColumns (0:ℚ)).length := by
      simpa using hc
    have h := calcLayoutGo_stack_y (columnWidthOf containerWidth columnGap
      numColumns) rowGap columnGap data (List.replicate numColumns 0) c hrep k
      (by simpa [MainList.calculateLayout] using hk)
    have hz : (List.replicate numColumns (0:ℚ)).getD c 0 = 0 := by
      rw [List.getD_eq_getElem _ _ hrep]
      simp
    rw [hz, zero_add] at h
    simpa [MainList.calculateLayout] using h

/-- Witness for C3 at two columns with concrete data. -/
theorem claim3_witness :
    ((1:ℕ) ≤ 2 ∧ (0:ℕ) < 2) ∧
    ((∀ (ci k : ℕ)
      (hk : k < (((Masonry.calculateColumnLayout witnessCols 2 200
        10).positions).filter (fun p => p.2.column == ci)).length),
      ((((Masonry.calculateColumnLayout witnessCols 2 200
          10).positions).filter (fun p => p.2.column == ci)).get ⟨k, hk⟩).2.y =
        (((((Masonry.calculateColumnLayout witnessCols 2 200
          10).positions).filter (fun p => p.2.column == ci)).take k).map
            (fun p => p.2.height + 10)).sum) ∧
    (∀ (k : ℕ)
      (hk : k < (((MainList.calculateLayout witnessData 2 200 10
        10).positions).filter (fun p => p.2.column == 0)).length),
      ((((MainList.calculateLayout witnessData 2 200 10
          10).positions).filter (fun p => p.2.column == 0)).get ⟨k, hk⟩).2.y =
        (((((MainList.calculateLayout witnessData 2 200 10
          10).positions).filter (fun p => p.2.column == 0)).take k).map
            (fun p => p.2.height + 10)).sum)) := by
  exact ⟨⟨by norm_num, by norm_num⟩,
    claim3_stacking witnessCols witnessData 2 200 10 10 10 0 (by norm_num)
      (by norm_num)⟩

/-- Setting an index to its own value is the identity. -/
theorem set_getElem_self {α : Type*} (l : List α) :
    ∀ (n : ℕ) (h : n < l.length), l.set n l[n] = l := by
  induction l with
  | nil => intro n h; simp at h
  | cons a t ih =>
    intro n h
    match n with
    | 0 => rfl
    | n' + 1 =>
      have h' : n' < t.length := by simpa using h
      show a :: t.set n' t[n'] = a :: t
      rw [ih n' h']

/-- A list is a permutation of its `k`-th element consed onto the list with
index `k` erased. -/
theorem perm_cons_eraseIdx {α : Type*} (l : List α) (k : ℕ) (h : k < l.length) :
    l.Perm (l[k] :: l.eraseIdx k) := by
  conv_lhs => rw [← List.take_append_drop k l, ← List.getElem_cons_drop l k h]
  rw [List.eraseIdx_eq_take_drop_succ]
  exact List.perm_middle

/-- Replacing the bucket at an in-range index permutes the flattened items to
the new bucket followed by the rest. -/
theorem set_flatten_perm {α : Type*} :
    ∀ (cols : List (List α)) (i : ℕ), i < cols.length → ∀ (new : List α),
      ((cols.set i new).flatten).Perm (new ++ (cols.eraseIdx i).flatten) := by
  intro cols
  induction cols with
  | nil => intro i hi; simp at hi
  | cons col cs ih =>
    intro i hi new
    match i with
    | 0 => simp
    | i' + 1 =>
      show ((col :: cs.set i' new).flatten).Perm
        (new ++ ((col :: cs).eraseIdx (i' + 1)).flatten)
      have hih := ih i' (by simpa using hi) new
      have e1 : (col :: cs.set i' new).flatten = col ++ (cs.set i' new).flatten :=
        List.flatten_cons
      have e2 : (new ++ col) ++ (cs.eraseIdx i').flatten =
          new ++ ((col :: cs).eraseIdx (i' + 1)).flatten := by
        rw [List.eraseIdx_cons_succ, List.flatten_cons, List.append_assoc]
      have h3 : (col ++ (new ++ (cs.eraseIdx i').flatten)).Perm
          ((new ++ col) ++ (cs.eraseIdx i').flatten) := by
        rw [← List.append_assoc]
        exact (List.perm_append_comm).append_right _
      rw [e1, ← e2]
      exact (hih.append_left col).trans h3

/-- The min/max scan keeps both tracked indices below the scan frontier. -/
theorem minMaxAux_idx_lt (t : List ℚ) :
    ∀ (c : ℕ) (mn mx : ℕ × ℚ), mn.1 < c → mx.1 < c →
      (BucketList.minMaxAux t c mn mx).1.1 < c + t.length ∧
      (BucketList.minMaxAux t c mn mx).2.1 < c + t.length := by
  induction t with
  | nil =>
    intro c mn mx h1 h2
    exact ⟨by simpa using h1, by simpa using h2⟩
  | cons h t ih =>
    intro c mn mx h1 h2
    have hmn : (if h < mn.2 then (c, h) else mn).1 < c + 1 := by
      split <;> omega
    have hmx : (if h > mx.2 then (c, h) else mx).1 < c + 1 := by
      split <;> omega
    have := ih (c + 1) _ _ hmn hmx
    constructor
    · have h' := this.1
      simp only [BucketList.minMaxAux, List.length_cons]
      omega
    · have h' := this.2
      simp only [BucketList.minMaxAux, List.length_cons]
      omega

/-- For a nonempty heights list, both indices found by `findMinMaxCols` are in
range. -/
theorem findMinMaxCols_idx_lt (heights : List ℚ) (hne : heights ≠ []) :
    (BucketList.findMinMaxCols heights).1.1 < heights.length ∧
    (BucketList.findMinMaxCols heights).2.1 < heights.length := by
  match heights, hne with
  | h :: t, _ =>
    have hb := minMaxAux_idx_lt t 1 (0, h) (0, h) (by norm_num) (by norm_num)
    have h1 : BucketList.findMinMaxCols (h :: t) =
        BucketList.minMaxAux t 1 (0, h) (0, h) := rfl
    rw [h1]
    simp only [List.length_cons]
    omega

/-- A balancing iteration either leaves the columns unchanged or splices one
item out of an in-range column and pushes it onto an in-range column. -/
theorem balanceStep_cases (cols : List (List MasonryItem)) (dragId : String) :
    (BucketList.balanceStep cols dragId).1 = cols ∨
    ∃ (maxI minI k : ℕ) (x : MasonryItem),
      maxI < cols.length ∧ minI < cols.length ∧
      (cols.getD maxI []).get? k = some x ∧
      (BucketList.balanceStep cols dragId).1 =
        ((cols.set maxI ((cols.getD maxI []).eraseIdx k)).set minI
          (((cols.set maxI ((cols.getD maxI []).eraseIdx k)).getD minI []) ++
            [x])) := by
  by_cases he : (BucketList.colHeights cols).isEmpty
  · left; simp [BucketList.balanceStep, he]
  · have hne : BucketList.colHeights cols ≠ [] := by
      simpa [List.isEmpty_iff] using he
    have hlen : (BucketList.colHeights cols).length = cols.length := by
      simp [BucketList.colHeights]
    obtain ⟨hminlt, hmaxlt⟩ := findMinMaxCols_idx_lt _ hne
    rw [hlen] at hminlt hmaxlt
    simp only [BucketList.balanceStep, he, Bool.false_eq_true, if_false]
    repeat' split
    all_goals first
      | (left; rfl)
      | (right
         refine ⟨_, _, _, _, hmaxlt, hminlt, ?_, rfl⟩
         assumption)

/-- Each balancing iteration preserves the multiset of items across the
columns. -/
theorem balanceStep_flatten_perm (cols : List (List MasonryItem))
    (dragId : String) :
    ((BucketList.balanceStep cols dragId).1).flatten.Perm cols.flatten := by
  rcases balanceStep_cases cols dragId with h | ⟨maxI, minI, k, x, hmax, hmin, hget, h⟩
  · rw [h]
  · rw [h]
    have hk : k < (cols.getD maxI []).length := List.get?_eq_some.mp hget |>.1
    have hx : (cols.getD maxI [])[k] = x := by
      have := List.get?_eq_some.mp hget
      obtain ⟨hk', hv⟩ := this
      simpa using hv
    have hmin1 : minI < (cols.set maxI ((cols.getD maxI []).eraseIdx k)).length := by
      rw [List.length_set]; exact hmin
    -- abbreviations
    have hp1 := set_flatten_perm (cols.set maxI ((cols.getD maxI []).eraseIdx k))
      minI hmin1 (((cols.set maxI ((cols.getD maxI []).eraseIdx k)).getD minI []) ++ [x])
    have hA : ((cols.set maxI ((cols.getD maxI []).eraseIdx k)).getD minI []) =
        (cols.set maxI ((cols.getD maxI []).eraseIdx k))[minI] :=
      List.getD_eq_getElem _ _ hmin1
    have hp2 : ((cols.set maxI ((cols.getD maxI []).eraseIdx k)).getD minI [] ++
        (((cols.set maxI ((cols.getD maxI []).eraseIdx k)).eraseIdx
          minI).flatten)).Perm
        ((cols.set maxI ((cols.getD maxI []).eraseIdx k)).flatten) := by
      have := set_flatten_perm (cols.set maxI ((cols.getD maxI []).eraseIdx k))
        minI hmin1 ((cols.set maxI ((cols.getD maxI []).eraseIdx k)).getD minI [])
      rw [hA] at this
      rw [set_getElem_self _ minI hmin1] at this
      rw [hA]
      exact this.symm
    have hp3 := set_flatten_perm cols maxI hmax ((cols.getD maxI []).eraseIdx k)
    have hp4 : (cols.getD maxI [] ++ (cols.eraseIdx maxI).flatten).Perm
        cols.flatten := by
      have := set_flatten_perm cols maxI hmax (cols.getD maxI [])
      rw [List.getD_eq_getElem _ _ hmax, set_getElem_self _ maxI hmax] at this
      rw [List.getD_eq_getElem _ _ hmax]
      exact this.symm
    have hp5 : (cols.getD maxI []).Perm
        (x :: (cols.getD maxI []).eraseIdx k) := by
      have := perm_cons_eraseIdx (cols.getD maxI []) k hk
      rwa [hx] at this
    -- assemble
    refine hp1.trans ?_
    have step1 : ((((cols.set maxI ((cols.getD maxI []).eraseIdx k)).getD minI
        []) ++ [x]) ++ (((cols.set maxI ((cols.getD maxI []).eraseIdx k)).eraseIdx
          minI).flatten)).Perm
        (x :: (((cols.set maxI ((cols.getD maxI []).eraseIdx k)).getD minI []) ++
          (((cols.set maxI ((cols.getD maxI []).eraseIdx k)).eraseIdx
            minI).flatten))) := by
      refine ((List.perm_append_comm).append_right _).trans ?_
      rw [List.append_assoc]
      exact List.Perm.rfl
    refine step1.trans ?_
    refine (hp2.cons x).trans ?_
    refine ((hp3.cons x).trans ?_)
    have step2 : (x :: ((cols.getD maxI []).eraseIdx k ++
        (cols.eraseIdx maxI).flatten)).Perm
        ((cols.getD maxI []) ++ (cols.eraseIdx maxI).flatten) := by
      have : (x :: ((cols.getD maxI []).eraseIdx k ++
          (cols.eraseIdx maxI).flatten)) =
          (x :: (cols.getD maxI []).eraseIdx k) ++
            (cols.eraseIdx maxI).flatten := rfl
      rw [this]
      exact (hp5.symm).append_right _
    exact step2.trans hp4

/-- When the spread is within the 300-unit threshold, one balancing iteration
does nothing and reports balanced. -/
theorem balanceStep_of_spread_le (cols : List (List MasonryItem))
    (dragId : String) (h : BucketList.spread cols ≤ 300) :
    BucketList.balanceStep cols dragId = (cols, true) := by
  by_cases he : (BucketList.colHeights cols).isEmpty
  · simp [BucketList.balanceStep, he]
  · simp only [BucketList.balanceStep, he, Bool.false_eq_true, if_false]
    have hg : ¬((BucketList.findMinMaxCols (BucketList.colHeights cols)).2.2 -
        (BucketList.findMinMaxCols (BucketList.colHeights cols)).1.2 > 300) :=
      not_lt.mpr h
    rw [if_neg hg]

/-- C5 counterexample.  Column buckets `[[a:100, c:500], [b:200]]` (heights
620 and 210 with the hard-coded gap 10) arise mid-drag, e.g. right after the
dragged item b (height 200) is inserted into column 1.  The spread 410 exceeds
the 300 threshold, so the balancer moves the tallest column's last item c
(500) onto column 1, producing heights 110 and 720: the max-min spread
strictly increases from 410 to 610 in one rebalancing move, refuting "never
increases the gap". -/
theorem claim5_counterexample :
    BucketList.spread ((BucketList.balanceStep
        [[⟨"a",100⟩, ⟨"c",500⟩], [⟨"b",200⟩]] "b").1) >
      BucketList.spread [[⟨"a",100⟩, ⟨"c",500⟩], [⟨"b",200⟩]] ∧
    (BucketList.balanceStep [[⟨"a",100⟩, ⟨"c",500⟩], [⟨"b",200⟩]] "b").1 =
      [[⟨"a",100⟩], [⟨"b",200⟩, ⟨"c",500⟩]] := by
  constructor
  · norm_num [BucketList.spread, BucketList.balanceStep, BucketList.colHeights,
      BucketList.findMinMaxCols, BucketList.minMaxAux, List.getD, List.set,
      List.eraseIdx, show (("c":String) = "b") = False from by simp]
  · norm_num [BucketList.balanceStep, BucketList.colHeights,
      BucketList.findMinMaxCols, BucketList.minMaxAux, List.getD, List.set,
      List.eraseIdx, show (("c":String) = "b") = False from by simp]

/-- C5 as amended: the balancing loop runs at most two iterations (its result
is one or two applications of `balanceStep`); when the max-min spread is
already within the 300-unit threshold it leaves the buckets unchanged; and
every iteration preserves the multiset of items.  A rebalancing move may,
however, strictly increase the spread (see the counterexample). -/
theorem claim5_balancer (cols : List (List MasonryItem)) (dragId : String) :
    (BucketList.spread cols ≤ 300 →
      BucketList.heightBalance cols dragId = cols) ∧
    (BucketList.heightBalance cols dragId =
        (BucketList.balanceStep cols dragId).1 ∨
      BucketList.heightBalance cols dragId =
        (BucketList.balanceStep (BucketList.balanceStep cols dragId).1
          dragId).1) ∧
    ((BucketList.heightBalance cols dragId).flatten).Perm cols.flatten := by
  refine ⟨?_, ?_, ?_⟩
  · intro h
    have hs := balanceStep_of_spread_le cols dragId h
    simp [BucketList.heightBalance, hs]
  · by_cases hb : (BucketList.balanceStep cols dragId).2
    · left; simp [BucketList.heightBalance, hb]
    · right; simp [BucketList.heightBalance, hb]
  · by_cases hb : (BucketList.balanceStep cols dragId).2
    · have : BucketList.heightBalance cols dragId =
          (BucketList.balanceStep cols dragId).1 := by
        simp [BucketList.heightBalance, hb]
      rw [this]
      exact balanceStep_flatten_perm cols dragId
    · have : BucketList.heightBalance cols dragId =
          (BucketList.balanceStep (BucketList.balanceStep cols dragId).1
            dragId).1 := by
        simp [BucketList.heightBalance, hb]
      rw [this]
      exact (balanceStep_flatten_perm _ dragId).trans
        (balanceStep_flatten_perm cols dragId)

/-- Witness for C5 (amended) at the single-bucket state `[[a:100]]`. -/
theorem claim5_witness :
    (BucketList.spread [[⟨"a",100⟩]] ≤ 300) ∧
    (BucketList.heightBalance [[⟨"a",100⟩]] "a" = [[⟨"a",100⟩]] ∧
      (BucketList.heightBalance [[⟨"a",100⟩]] "a" =
          (BucketList.balanceStep [[⟨"a",100⟩]] "a").1 ∨
        BucketList.heightBalance [[⟨"a",100⟩]] "a" =
          (BucketList.balanceStep (BucketList.balanceStep [[⟨"a",100⟩]] "a").1
            "a").1) ∧
      ((BucketList.heightBalance [[⟨"a",100⟩]] "a").flatten).Perm
        ([[⟨"a",100⟩]] : List (List MasonryItem)).flatten) := by
  have hsp : BucketList.spread [[⟨"a",100⟩]] ≤ 300 := by
    norm_num [BucketList.spread, BucketList.colHeights,
      BucketList.findMinMaxCols, BucketList.minMaxAux]
  obtain ⟨h1, h2, h3⟩ := claim5_balancer [[⟨"a",100⟩]] "a"
  exact ⟨hsp, h1 hsp, h2, h3⟩

/-- C6 counterexample.  With the default configuration (thresholds 150,
`autoScrollMinSpeed = 2`, `autoScrollMaxSpeed = 50`,
`autoScrollAcceleration = 2.5`, `autoScrollTargetDuration = 0.5`, window
height 800) and the locked max speed already set to 50 while scrolling up, the
frame delta magnitude is not continuous at the zone boundary
`screenY = topThreshold`: the delta is 0 at and outside the boundary, but its
magnitude is at least `autoScrollMinSpeed = 2` everywhere strictly inside the
zone, because the per-frame speed is `minSpeed + (max-min)·intensity^2.5` with
a nonnegative second term.  So "delta magnitude is continuous with no
discontinuous jump at screenY = threshold" is false: there is a jump of at
least 2. -/
theorem claim6_counterexample :
    ¬ (∀ ε : ℝ, 0 < ε → ∃ δ : ℝ, 0 < δ ∧ ∀ y : ℝ, 150 - δ < y → y < 150 →
        |(MainList.frameScrollDelta 150 150 2 50 (5/2) (1/2) 800 2000 y 1000 50
          (-1)).1| < ε) := by
  intro hcont
  obtain ⟨δ, hδ, hδ2⟩ := hcont 2 (by norm_num)
  set y : ℝ := 150 - (min δ 100) / 2 with hy
  have hmin : 0 < min δ 100 := lt_min hδ (by norm_num)
  have hy1 : 150 - δ < y := by
    have : (min δ 100) / 2 < δ := by
      have h1 : min δ 100 ≤ δ := min_le_left _ _
      linarith
    rw [hy]; linarith
  have hy2 : y < 150 := by rw [hy]; linarith
  have hy3 : (0:ℝ) < y := by
    have : min δ 100 ≤ 100 := min_le_right _ _
    rw [hy]; linarith
  have hde : (MainList.frameScrollDelta 150 150 2 50 (5/2) (1/2) 800 2000 y
      1000 50 (-1)).1 = -(2 + (50 - 2) * ((150 - y) / 150) ^ ((5:ℝ)/2)) := by
    rw [MainList.frameScrollDelta, if_pos ⟨hy2, hy3⟩]
    norm_num
  have hpow : (0:ℝ) ≤ ((150 - y) / 150) ^ ((5:ℝ)/2) :=
    Real.rpow_nonneg (by linarith) _
  have habs : (2:ℝ) ≤ |(MainList.frameScrollDelta 150 150 2 50 (5/2) (1/2) 800
      2000 y 1000 50 (-1)).1| := by
    have hnn : (0:ℝ) ≤ (50 - 2) * ((150 - y) / 150) ^ ((5:ℝ)/2) :=
      mul_nonneg (by norm_num) hpow
    rw [hde, abs_neg, abs_of_nonneg (by linarith)]
    linarith
  have := hδ2 y hy1 hy2
  linarith

/-- C6 as amended: for every pointer position outside both edge zones
(`topThreshold ≤ screenY ≤ windowHeight - bottomThreshold`) the per-frame
auto-scroll delta is 0 (and the locked speed and direction are reset); but at
the zone boundary the delta magnitude is not continuous — it jumps by at least
`autoScrollMinSpeed` (see the counterexample). -/
theorem claim6_delta_outside_zero (topThreshold bottomThreshold
    autoScrollMinSpeed autoScrollMaxSpeed autoScrollAcceleration
    autoScrollTargetDuration windowHeight totalContentHeight screenY
    currentScroll lockedIn : ℝ) (dirIn : ℤ)
    (h1 : topThreshold ≤ screenY)
    (h2 : screenY ≤ windowHeight - bottomThreshold) :
    (MainList.frameScrollDelta topThreshold bottomThreshold autoScrollMinSpeed
      autoScrollMaxSpeed autoScrollAcceleration autoScrollTargetDuration
      windowHeight totalContentHeight screenY currentScroll lockedIn
      dirIn) = (0, -1, 0) := by
  have hc1 : ¬(screenY < topThreshold ∧ screenY > 0) := by
    rintro ⟨ha, _⟩; linarith
  have hc2 : ¬(screenY > windowHeight - bottomThreshold) := not_lt.mpr h2
  rw [MainList.frameScrollDelta, if_neg hc1, if_neg hc2]

/-- Witness for C6 (amended) at a concrete mid-screen pointer position. -/
theorem claim6_witness :
    ((150:ℝ) ≤ 300 ∧ (300:ℝ) ≤ 800 - 150) ∧
    (MainList.frameScrollDelta 150 150 2 50 (5/2) (1/2) 800 2000 300 0 50 0) =
      (0, -1, 0) := by
  refine ⟨⟨by norm_num, by norm_num⟩, ?_⟩
  exact claim6_delta_outside_zero 150 150 2 50 (5/2) (1/2) 800 2000 300 0 50 0
    (by norm_num) (by norm_num)

/-- The last element reported by `getLast?` is a member of the list. -/
theorem mem_of_getLast? {α : Type*} :
    ∀ (l : List α) (x : α), l.getLast? = some x → x ∈ l := by
  intro l
  induction l with
  | nil => intro x h; simp at h
  | cons a t ih =>
    intro x h
    cases t with
    | nil =>
      simp only [List.getLast?_singleton, Option.some.injEq] at h
      subst h
      exact List.mem_singleton_self a
    | cons b t' =>
      rw [List.getLast?_cons_cons] at h
      exact List.mem_cons_of_mem a (ih x h)

/-- Every overlap record built by the scan has its `originalIndex` (a JS
`indexOf` into `filteredData`) strictly below `filteredData.length`, provided
the scanned list only holds members of `filteredData`. -/
theorem buildOverlaps_originalIndex_lt (dragX dragY dragRight dragBottom
    dragCenterY : ℚ) (positions : List (String × ItemPosition))
    (filteredData : List MasonryItem) :
    ∀ (l : List MasonryItem) (i : ℕ), (∀ it ∈ l, it ∈ filteredData) →
      ∀ o ∈ MainList.buildOverlaps dragX dragY dragRight dragBottom dragCenterY
        positions filteredData l i, o.originalIndex < filteredData.length := by
  intro l
  induction l with
  | nil => intro i hsub o ho; simp [MainList.buildOverlaps] at ho
  | cons item rest ih =>
    intro i hsub o ho
    cases hl : positions.lookup item.id with
    | none =>
      rw [MainList.buildOverlaps, hl] at ho
      exact ih (i + 1) (fun it hit => hsub it (List.mem_cons_of_mem _ hit)) o ho
    | some pos =>
      rw [MainList.buildOverlaps, hl] at ho
      rcases List.mem_cons.mp ho with rfl | ho
      · exact List.indexOf_lt_length.mpr (hsub item (List.mem_cons_self _ _))
      · exact ih (i + 1) (fun it hit => hsub it (List.mem_cons_of_mem _ hit)) o ho

/-- The fallback scan's running insert index never exceeds the scan frontier
plus the remaining length. -/
theorem fallbackScan_le (dragCenterY : ℚ)
    (positions : List (String × ItemPosition)) :
    ∀ (l : List MasonryItem) (i acc : ℕ), acc ≤ i + l.length →
      MainList.fallbackScan dragCenterY positions l i acc ≤ i + l.length := by
  intro l
  induction l with
  | nil => intro i acc h; simpa [MainList.fallbackScan] using h
  | cons item rest ih =>
    intro i acc h
    cases hl : positions.lookup item.id with
    | none =>
      rw [MainList.fallbackScan, hl]
      have h2 := ih (i + 1) acc (by simp only [List.length_cons] at h; omega)
      simp only [List.length_cons]
      omega
    | some pos =>
      rw [MainList.fallbackScan, hl]
      have h2 := ih (i + 1) acc (by simp only [List.length_cons] at h; omega)
      have h3 := ih (i + 1) (i + 1) (by omega)
      simp only [List.length_cons]
      split <;> omega

/-- The overlap-area resolver always returns an insertion index in
`[0, filteredData.length]`. -/
theorem mainList_findInsertIndex_bounds (dragX dragY dragWidth dragHeight : ℚ)
    (data : List MasonryItem) (positions : List (String × ItemPosition))
    (dragId : String) (currentInsertIndex : ℤ) (numColumns : ℕ)
    (columnGap : ℚ) :
    0 ≤ MainList.findInsertIndex dragX dragY dragWidth dragHeight data
      positions dragId currentInsertIndex numColumns columnGap ∧
    MainList.findInsertIndex dragX dragY dragWidth dragHeight data positions
      dragId currentInsertIndex numColumns columnGap ≤
      ((data.filter (fun item => item.id != dragId)).length : ℤ) := by
  simp only [MainList.findInsertIndex]
  split
  · norm_num
  · split
    · norm_num
    · rename_i firstPos hhead
      split
      · rename_i primaryOverlap hfind
        have hmem := List.mem_of_find?_eq_some hfind
        rw [List.mem_mergeSort] at hmem
        have hoi := buildOverlaps_originalIndex_lt dragX dragY (dragX + dragWidth)
          (dragY + dragHeight) (dragY + dragHeight / 2) positions
          (data.filter (fun item => item.id != dragId)) _ 0
          (fun it hit => List.mem_of_mem_filter hit) _ hmem
        repeat' split
        all_goals constructor <;> omega
      · rename_i hfind
        split
        · split
          · rename_i o hfindo
            have hmem := List.mem_of_find?_eq_some hfindo
            rw [List.mem_mergeSort] at hmem
            have hmem2 := List.mem_of_mem_filter hmem
            have hoi := buildOverlaps_originalIndex_lt dragX dragY
              (dragX + dragWidth) (dragY + dragHeight) (dragY + dragHeight / 2)
              positions (data.filter (fun item => item.id != dragId)) _ 0
              (fun it hit => List.mem_of_mem_filter hit) _ hmem2
            constructor <;> omega
          · rename_i hfindo
            split
            · rename_i lastO hlast
              have hmem := mem_of_getLast? _ _ hlast
              rw [List.mem_mergeSort] at hmem
              have hmem2 := List.mem_of_mem_filter hmem
              have hoi := buildOverlaps_originalIndex_lt dragX dragY
                (dragX + dragWidth) (dragY + dragHeight) (dragY + dragHeight / 2)
                positions (data.filter (fun item => item.id != dragId)) _ 0
                (fun it hit => List.mem_of_mem_filter hit) _ hmem2
              constructor <;> omega
            · norm_num
        · have hscan := fallbackScan_le (dragY + dragHeight / 2) positions
            (data.filter (fun item => item.id != dragId)) 0 0 (by omega)
          split
          · rename_i hcur
            split
            · constructor <;> omega
            · rename_i boundaryItem hget
              have hlt : (min currentInsertIndex
                  (MainList.fallbackScan (dragY + dragHeight / 2) positions
                    (data.filter (fun item => item.id != dragId)) 0 0 :
                    ℤ)).toNat <
                  (data.filter (fun item => item.id != dragId)).length :=
                (List.get?_eq_some.mp hget).1
              split
              · constructor <;> omega
              · split
                · constructor <;> omega
                · rcases le_total currentInsertIndex
                    ((MainList.fallbackScan (dragY + dragHeight / 2) positions
                      (data.filter (fun item => item.id != dragId)) 0 0 : ℕ) : ℤ)
                    with hmm | hmm
                  · rw [min_eq_left hmm] at hlt
                    constructor <;> omega
                  · rw [min_eq_right hmm] at hlt
                    constructor <;> omega
          · constructor <;> omega

/-- Every index collected by the same-column scan is below the scan frontier
plus the remaining length. -/
theorem collectSameColumn_fst_lt (clampedColumn : ℤ) (columnWidth columnGap : ℚ)
    (positions : List (String × ItemPosition)) :
    ∀ (l : List MasonryItem) (i : ℕ),
      ∀ op ∈ AltList.collectSameColumn clampedColumn columnWidth columnGap
        positions l i, op.1 < i + l.length := by
  intro l
  induction l with
  | nil => intro i op hop; simp [AltList.collectSameColumn] at hop
  | cons item rest ih =>
    intro i op hop
    cases hl : positions.lookup item.id with
    | none =>
      rw [AltList.collectSameColumn, hl] at hop
      have := ih (i + 1) op hop
      simp only [List.length_cons]
      omega
    | some pos =>
      rw [AltList.collectSameColumn, hl] at hop
      simp only at hop
      by_cases hcol : ⌊pos.x / (columnWidth + columnGap)⌋ = clampedColumn
      · rw [if_pos hcol] at hop
        rcases List.mem_cons.mp hop with rfl | hop
        · simp only [List.length_cons]; omega
        · have := ih (i + 1) op hop
          simp only [List.length_cons]
          omega
      · rw [if_neg hcol] at hop
        have := ih (i + 1) op hop
        simp only [List.length_cons]
        omega

/-- The column-affinity resolver of the previous variant always returns an
insertion index in `[0, filteredData.length]`. -/
theorem altList_findInsertIndex_bounds (dragX dragY dragWidth dragHeight : ℚ)
    (data : List MasonryItem) (positions : List (String × ItemPosition))
    (dragId : String) (currentInsertIndex : ℤ) (numColumns : ℕ)
    (columnGap : ℚ) :
    0 ≤ AltList.findInsertIndex dragX dragY dragWidth dragHeight data
      positions dragId currentInsertIndex numColumns columnGap ∧
    AltList.findInsertIndex dragX dragY dragWidth dragHeight data positions
      dragId currentInsertIndex numColumns columnGap ≤
      ((data.filter (fun item => item.id != dragId)).length : ℤ) := by
  simp only [AltList.findInsertIndex]
  split
  · norm_num
  · split
    · norm_num
    · rename_i firstPos hhead
      split
      · have hscan := fallbackScan_le (dragY + dragHeight / 2) positions
          (data.filter (fun item => item.id != dragId)) 0 0 (by omega)
        constructor <;> omega
      · split
        · rename_i op hfindo
          have hmem := List.mem_of_find?_eq_some hfindo
          rw [List.mem_mergeSort] at hmem
          have hlt := collectSameColumn_fst_lt _ _ _ positions
            (data.filter (fun item => item.id != dragId)) 0 op hmem
          constructor <;> omega
        · split
          · rename_i lastOp hlast
            have hmem := mem_of_getLast? _ _ hlast
            rw [List.mem_mergeSort] at hmem
            have hlt := collectSameColumn_fst_lt _ _ _ positions
              (data.filter (fun item => item.id != dragId)) 0 lastOp hmem
            constructor <;> omega
          · norm_num

/-- C10.  Both `findInsertIndex` implementations (the overlap-area resolver of
part_002 and the column-affinity resolver of part_001's second file) are total
and always return an insertion index in the closed range `[0, n]`, where `n`
is the number of items other than the dragged one — a valid splice position
into the filtered order. -/
theorem claim10_findInsertIndex_range (dragX dragY dragWidth dragHeight : ℚ)
    (data : List MasonryItem) (positions : List (String × ItemPosition))
    (dragId : String) (currentInsertIndex : ℤ) (numColumns : ℕ)
    (columnGap : ℚ) :
    (0 ≤ MainList.findInsertIndex dragX dragY dragWidth dragHeight data
        positions dragId currentInsertIndex numColumns columnGap ∧
      MainList.findInsertIndex dragX dragY dragWidth dragHeight data positions
        dragId currentInsertIndex numColumns columnGap ≤
        ((data.filter (fun item => item.id != dragId)).length : ℤ)) ∧
    (0 ≤ AltList.findInsertIndex dragX dragY dragWidth dragHeight data
        positions dragId currentInsertIndex numColumns columnGap ∧
      AltList.findInsertIndex dragX dragY dragWidth dragHeight data positions
        dragId currentInsertIndex numColumns columnGap ≤
        ((data.filter (fun item => item.id != dragId)).length : ℤ)) :=
  ⟨mainList_findInsertIndex_bounds dragX dragY dragWidth dragHeight data
      positions dragId currentInsertIndex numColumns columnGap,
    altList_findInsertIndex_bounds dragX dragY dragWidth dragHeight data
      positions dragId currentInsertIndex numColumns columnGap⟩

/-- C4.  Every rectangle of both layout calculators has
`width = (containerWidth - (numColumns-1)·gap)/numColumns` and
`x = columnIndex × (columnWidth + gap)`, and the concrete column widths:
200/10/2 → 95 and 375/10/3 → 355/3. -/
theorem claim4_width_and_x (columns : List (List MasonryItem))
    (data : List MasonryItem) (numColumns : ℕ)
    (containerWidth gap rowGap columnGap : ℚ)
    (hN : 1 ≤ numColumns) (hw : 0 ≤ containerWidth) (hg : 0 ≤ gap)
    (hcg : 0 ≤ columnGap) :
    (∀ p ∈ (Masonry.calculateColumnLayout columns numColumns containerWidth
        gap).positions,
      p.2.width = columnWidthOf containerWidth gap numColumns ∧
        p.2.x = (p.2.column : ℚ) *
          (columnWidthOf containerWidth gap numColumns + gap)) ∧
    (∀ p ∈ (MainList.calculateLayout data numColumns containerWidth rowGap
        columnGap).positions,
      p.2.width = columnWidthOf containerWidth columnGap numColumns ∧
        p.2.x = (p.2.column : ℚ) *
          (columnWidthOf containerWidth columnGap numColumns + columnGap)) ∧
    columnWidthOf 200 10 2 = 95 ∧ columnWidthOf 375 10 3 = 355 / 3 := by
  refine ⟨calculateColumnLayout_geom columns numColumns containerWidth gap, ?_,
    by norm_num [columnWidthOf], by norm_num [columnWidthOf]⟩
  intro p hp
  exact calcLayoutGo_geom _ _ _ _ _ p hp

/-- Witness for C4 at a concrete input. -/
theorem claim4_witness :
    ((1:ℕ) ≤ 2 ∧ (0:ℚ) ≤ 200 ∧ (0:ℚ) ≤ 10 ∧ (0:ℚ) ≤ 10) ∧
    ((∀ p ∈ (Masonry.calculateColumnLayout [[⟨"a",100⟩]] 2 200 10).positions,
        p.2.width = columnWidthOf 200 10 2 ∧
          p.2.x = (p.2.column : ℚ) * (columnWidthOf 200 10 2 + 10)) ∧
      (∀ p ∈ (MainList.calculateLayout [⟨"a",100⟩] 2 200 10 10).positions,
        p.2.width = columnWidthOf 200 10 2 ∧
          p.2.x = (p.2.column : ℚ) * (columnWidthOf 200 10 2 + 10)) ∧
      columnWidthOf 200 10 2 = 95 ∧ columnWidthOf 375 10 3 = 355 / 3) := by
  refine ⟨⟨by norm_num, by norm_num, by norm_num, by norm_num⟩, ?_⟩
  exact claim4_width_and_x [[⟨"a",100⟩]] [⟨"a",100⟩] 2 200 10 10 10
    (by norm_num) (by norm_num) (by norm_num) (by norm_num)

/-- C9 counterexample.  With a negative gap (`rowGap = columnGap = gap = -5`),
an invalid configuration, both layout calculators still return a full position
map — no `InvalidConfiguration` failure exists anywhere in the code, so layout
is computed even when the parameters are invalid. -/
theorem claim9_counterexample :
    ((MainList.calculateLayout [⟨"a",100⟩, ⟨"b",150⟩] 2 200 (-5)
        (-5)).positions).map Prod.fst = ["a", "b"] ∧
    ((Masonry.calculateColumnLayout [[⟨"a",100⟩], [⟨"b",150⟩]] 2 200
        (-5)).positions).map Prod.fst = ["a", "b"] := by
  constructor
  · rw [calculateLayout_keys]; rfl
  · rw [calculateColumnLayout_keys]; rfl

/-- C9 as amended: the layout calculators perform no configuration
validation.  For every configuration — any column count, any (possibly
negative) gap and container width — they return a position map with exactly
one rectangle per input item; there is no error path. -/
theorem claim9_no_validation (columns : List (List MasonryItem))
    (data : List MasonryItem) (numColumns : ℕ)
    (containerWidth gap rowGap columnGap : ℚ) :
    ((Masonry.calculateColumnLayout columns numColumns containerWidth
        gap).positions).length = columns.flatten.length ∧
    ((MainList.calculateLayout data numColumns containerWidth rowGap
        columnGap).positions).length = data.length := by
  constructor
  · have h := calculateColumnLayout_keys columns numColumns containerWidth gap
    calc ((Masonry.calculateColumnLayout columns numColumns containerWidth
            gap).positions).length
        = (((Masonry.calculateColumnLayout columns numColumns containerWidth
            gap).positions).map Prod.fst).length := (List.length_map _ _).symm
      _ = ((columns.flatten).map MasonryItem.id).length := by rw [h]
      _ = columns.flatten.length := List.length_map _ _
  · have h := calculateLayout_keys data numColumns containerWidth rowGap columnGap
    calc ((MainList.calculateLayout data numColumns containerWidth rowGap
            columnGap).positions).length
        = (((MainList.calculateLayout data numColumns containerWidth rowGap
            columnGap).positions).map Prod.fst).length := (List.length_map _ _).symm
      _ = (data.map MasonryItem.id).length := by rw [h]
      _ = data.length := List.length_map _ _

/-- Witness for C1 at a concrete input: buckets `[[a,c],[b]]` and flat data
`[a,b,c]`, two columns, width 200, gaps 10. -/
theorem claim1_witness :
    (1 ≤ 2 ∧
      (∀ it ∈ witnessCols.flatten, 0 ≤ it.height) ∧
      (∀ it ∈ witnessData, 0 ≤ it.height) ∧
      ((witnessCols.flatten.map MasonryItem.id).Nodup) ∧
      ((witnessData.map MasonryItem.id).Nodup)) ∧
    ((((Masonry.calculateColumnLayout witnessCols 2 200 10).positions).map
          Prod.fst = (witnessCols.flatten).map MasonryItem.id ∧
        (((Masonry.calculateColumnLayout witnessCols 2 200 10).positions).map
          Prod.fst).Nodup) ∧
      (((MainList.calculateLayout witnessData 2 200 10 10).positions).map
          Prod.fst = witnessData.map MasonryItem.id ∧
        (((MainList.calculateLayout witnessData 2 200 10 10).positions).map
          Prod.fst).Nodup)) := by
  have h1 : (1:ℕ) ≤ 2 := by norm_num
  have h2 : ∀ it ∈ witnessCols.flatten, 0 ≤ it.height := by
    intro it hit
    simp only [witnessCols, List.flatten] at hit
    fin_cases hit <;> norm_num
  have h3 : ∀ it ∈ witnessData, 0 ≤ it.height := by
    intro it hit
    simp only [witnessData] at hit
    fin_cases hit <;> norm_num
  have h4 : (witnessCols.flatten.map MasonryItem.id).Nodup := by
    simp [witnessCols]
  have h5 : (witnessData.map MasonryItem.id).Nodup := by
    simp [witnessData]
  exact ⟨⟨h1, h2, h3, h4, h5⟩,
    claim1_layout_coverage witnessCols witnessData 2 200 10 10 10 h1 h2 h3 h4 h5⟩
